import Mathlib

/-!
Verification of the Public Suffix List (PSL) analyzer
(`src/python/public_suffix/public_suffix.py`) against its specification.

The validator, the NIC-URL backward scan and the summary classifier are
embedded directly from the Python source.  The suffix matcher itself lives in
the external `publicsuffix2` library (only its call sites are in the
repository), so it is modelled from the specification text (sections 3, 4.2
and 4.3 of the spec); those definitions are marked `Modelled from the spec`.

Strings are modelled through their character lists (`String.data`); Python
`str.strip`, `str.splitlines`, the `in` operator and the two regular
expressions used by the source are given explicit executable semantics.
-/

namespace PublicSuffix

/-- Python whitespace characters relevant to `str.strip` and the regex class
`\s` (ASCII part; the PSL dataset and all inputs considered are ASCII). -/
def isPySpace (c : Char) : Bool :=
  c = ' ' || c = '\t' || c = '\n' || c = '\r' || c = Char.ofNat 11 || c = Char.ofNat 12

/-- `str.strip()` on a character list: drop whitespace on both ends. -/
def pyStripC (cs : List Char) : List Char :=
  ((cs.dropWhile isPySpace).reverse.dropWhile isPySpace).reverse

/-- `str.strip()` on a string. -/
def pyStrip (s : String) : String :=
  String.mk (pyStripC s.data)

/-- Split a character list on the dot character, Python `str.split(".")`:
always returns at least one (possibly empty) piece. -/
def splitOnDot : List Char → List (List Char)
  | [] => [[]]
  | c :: cs =>
    if c = '.' then [] :: splitOnDot cs
    else
      match splitOnDot cs with
      | [] => [[c]]
      | l :: ls => (c :: l) :: ls

/-- The dot-separated labels of a domain string. -/
def labelsOf (s : String) : List String :=
  (splitOnDot s.data).map String.mk

/-- Join character-list labels with dots (inverse of `splitOnDot`). -/
def joinDotsC : List (List Char) → List Char
  | [] => []
  | [l] => l
  | l :: l2 :: ls => l ++ '.' :: joinDotsC (l2 :: ls)

/-- Join string labels with dots. -/
def joinDots (L : List String) : String :=
  String.mk (joinDotsC (L.map String.data))

/-- Character class `[A-Za-z0-9-]` of the validator regex. -/
def isRegexLabelChar (c : Char) : Bool :=
  c.isAlpha || c.isDigit || c = '-'

/-- One inner label of the validator regex: the group
`[A-Za-z0-9-]{1,63}(?<!-)\.` demands 1 to 63 characters from the class, the
character before the dot (i.e. the last of the label) not a hyphen. -/
def okInnerLabel (l : List Char) : Bool :=
  decide (1 ≤ l.length) && decide (l.length ≤ 63) &&
    l.all isRegexLabelChar && !(l.getLast? == some '-')

/-- The apex (final) label of the validator regex: `[A-Za-z]{2,63}`. -/
def okApexLabel (l : List Char) : Bool :=
  decide (2 ≤ l.length) && decide (l.length ≤ 63) && l.all Char.isAlpha

/-- `is_valid_domain` from the source: semantics of
`re.match(r"^(?=.{1,253}$)(?!-)([A-Za-z0-9-]{1,63}(?<!-)\.)+[A-Za-z]{2,63}$", s)`.

Unfolding of the regex: Python `$` matches at the end of the string or just
before one final newline, and `.` matches anything but a newline, so with
`core` equal to `s` minus one trailing newline (when present) the lookahead
`(?=.{1,253}$)` says exactly that `core` is newline-free and 1 to 253
characters long.  Every consumed character class excludes the dot and the
newline, hence the group structure `(label.)+apex` decomposes `core` uniquely
as its dot-split: every piece but the last is an inner label, the last is the
apex, and there is at least one dot.  `(?!-)` forbids a hyphen at position 0
only, i.e. at the start of the first label. -/
def is_valid_domain (s : String) : Bool :=
  let cs := s.data
  let core := if cs.getLast? == some '\n' then cs.dropLast else cs
  let labs := splitOnDot core
  core.all (fun c => !(c == '\n')) &&
    decide (1 ≤ core.length) && decide (core.length ≤ 253) &&
    !(core.head? == some '-') &&
    decide (2 ≤ labs.length) &&
    labs.dropLast.all okInnerLabel &&
    okApexLabel (labs.getLastD [])

/-- Does `needle` occur as a contiguous sublist of the second argument?
Semantics of the Python `in` operator on strings. -/
def containsSubC (needle : List Char) : List Char → Bool
  | [] => needle.isPrefixOf ([] : List Char)
  | c :: cs => needle.isPrefixOf (c :: cs) || containsSubC needle cs

/-- Python `t in s` for strings. -/
def pyInStr (t s : String) : Bool :=
  containsSubC t.data s.data

/-- Python `s.startswith(p)`. -/
def strStartsWith (p s : String) : Bool :=
  p.data.isPrefixOf s.data

/-- The diagnostic categories produced by the summary interpreter
(`print_domain_summary`). -/
inductive Category where
  | isPublicSuffix
  | ordinaryRegistrable
  | inconsistentData
  | unparseable
deriving DecidableEq

/-- Python truthiness of an optional string: `None` and the empty string are
falsy. -/
def pyTruthy : Option String → Bool
  | none => false
  | some s => !(s == "")

/-- The decision structure of `print_domain_summary` (source lines 488-504),
read off the `if`/`elif` chain; `tld in sld` is the Python substring test. -/
def classify (tld sld : Option String) : Category :=
  if (pyTruthy tld && pyTruthy sld && (tld == sld)) || (pyTruthy tld && !pyTruthy sld) then
    Category.isPublicSuffix
  else if pyTruthy tld && pyTruthy sld && pyInStr (tld.getD "") (sld.getD "") then
    Category.ordinaryRegistrable
  else if pyTruthy tld && pyTruthy sld && !pyInStr (tld.getD "") (sld.getD "") then
    Category.inconsistentData
  else if !pyTruthy tld && pyTruthy sld then
    Category.inconsistentData
  else
    Category.unparseable

/-- The characters of the literal `https://`. -/
def httpsChars : List Char :=
  ['h', 't', 't', 'p', 's', ':', '/', '/']

/-- Semantics of `re.search(r"https://[^\s]+", line)`: try every start
position from the left; at a position where the literal `https://` is
followed by at least one non-whitespace character, return `https://` plus the
maximal run of non-whitespace characters; a position where `https://` is
followed by whitespace or the end of the line does not match, and the search
moves on to later positions. -/
def searchUrlC : List Char → Option (List Char)
  | [] => none
  | c :: cs =>
    if httpsChars.isPrefixOf (c :: cs) then
      let run := (cs.drop 7).takeWhile (fun ch => !isPySpace ch)
      if run.isEmpty then searchUrlC cs else some (httpsChars ++ run)
    else searchUrlC cs

/-- One step of the backward NIC scan, for one already-stripped line
(source lines 158-163): require the `//` comment marker and an embedded
`https://`, then extract with `re.search`. -/
def lineHitCore (line : String) : Option String :=
  if strStartsWith "//" line && pyInStr "https://" line then
    (searchUrlC line.data).map String.mk
  else
    none

/-- One step of the backward NIC scan for the raw text of one line:
`line = lines[i].strip()` then the comment test and extraction. -/
def lineHitStr (raw : String) : Option String :=
  lineHitCore (pyStrip raw)

/-- The hit attempt at index `i` of the line table; Python indexes inside the
valid range only, so the default value is never consulted. -/
def nicLineHit (lines : List String) (i : Nat) : Option String :=
  lineHitStr ((lines.get? i).getD "")

/-- The backward scan `for i in range(target_line, -1, -1)` of
`find_nic_url_for_suffix`: at each index try the line, on failure continue
with the next smaller index, give up below zero. -/
def scanBackNic (lines : List String) : Nat → Option String
  | 0 => nicLineHit lines 0
  | i + 1 =>
    match nicLineHit lines (i + 1) with
    | some u => some u
    | none => scanBackNic lines i

/-- The `resolveNic` interface of the spec over the loaded line table: a null
matched-line index yields null immediately (the `target_line == -1` early
return), otherwise the backward scan runs from the given index. -/
def resolveNic (lines : List String) : Option Nat → Option String
  | none => none
  | some i => scanBackNic lines i

/-- The forward search of `find_nic_url_for_suffix` (source lines 147-151):
first line whose stripped text equals the target suffix, counting from
`start`. -/
def findTargetLineAux (target : String) : List String → Nat → Option Nat
  | [], _ => none
  | line :: rest, i =>
    if pyStrip line == target then some i else findTargetLineAux target rest (i + 1)

/-- Index of the first line whose stripped text equals the target suffix. -/
def findTargetLine (lines : List String) (target : String) : Option Nat :=
  findTargetLineAux target lines 0

/-- Line-break characters of Python `str.splitlines` (ASCII range; the PSL
dataset is ASCII).  `\r\n` is handled as one break by `splitlinesC`. -/
def isLineBreak (c : Char) : Bool :=
  c = '\n' || c = '\r' || c = Char.ofNat 11 || c = Char.ofNat 12 ||
    c = Char.ofNat 28 || c = Char.ofNat 29 || c = Char.ofNat 30

/-- Python `str.splitlines` on characters: split at line breaks, treat `\r\n`
as a single break, produce no line for a terminator at the very end. -/
def splitlinesC : List Char → List Char → List (List Char)
  | [], acc => if acc.isEmpty then [] else [acc.reverse]
  | '\r' :: '\n' :: cs, acc => acc.reverse :: splitlinesC cs []
  | c :: cs, acc =>
    if isLineBreak c then acc.reverse :: splitlinesC cs []
    else splitlinesC cs (c :: acc)

/-- Python `str.splitlines` on strings. -/
def splitlines (s : String) : List String :=
  (splitlinesC s.data []).map String.mk

/-- `find_nic_url_for_suffix` from the source, with the fetched dataset text
passed in (the fetch itself is the external text-source collaborator):
split the text into lines, locate the suffix line, then scan backwards. -/
def find_nic_url_for_suffix (pslText target : String) : Option String :=
  resolveNic (splitlines pslText) (findTargetLine (splitlines pslText) target)

/-! ### The suffix matcher, modelled from the spec

The matcher used by `get_domain_name_tld_sld` is `publicsuffix2.get_tld` /
`get_sld`, which is not part of this repository; the definitions below are
modelled from the specification (sections 3, 4.2, 4.3). -/

/-- Modelled from the spec: the three `SuffixRule` variants of section 3. -/
inductive RuleKind where
  | exactRule
  | wildcardRule
  | exceptionRule
deriving DecidableEq

/-- Modelled from the spec: one PSL entry — its variant, its label sequence
(for a wildcard the literal suffix after `*.`, for an exception the labels
with the `!` marker stripped), and its originating line index. -/
structure PslRule where
  kind : RuleKind
  labels : List String
  lineIndex : Nat
deriving DecidableEq

/-- Modelled from the spec (section 4.2 and glossary): classify one retained
line.  Blank lines and `//` comment lines carry no rule; `!label.suffix`
(at least two labels, per the glossary form) is an exception rule; `*.suffix`
is a wildcard rule; anything else is an exact rule. -/
def classifyRuleLine (idx : Nat) (line : String) : Option PslRule :=
  if line.data.isEmpty then none
  else if strStartsWith "//" line then none
  else if strStartsWith "!" line then
    if 2 ≤ ((splitOnDot (line.data.drop 1)).map String.mk).length then
      some ⟨RuleKind.exceptionRule, (splitOnDot (line.data.drop 1)).map String.mk, idx⟩
    else none
  else if strStartsWith "*." line then
    some ⟨RuleKind.wildcardRule, (splitOnDot (line.data.drop 2)).map String.mk, idx⟩
  else
    some ⟨RuleKind.exactRule, (splitOnDot line.data).map String.mk, idx⟩

/-- Classification of one raw table line: the line is stripped first. -/
def parseRuleLine (idx : Nat) (raw : String) : Option PslRule :=
  classifyRuleLine idx (pyStrip raw)

/-- Modelled from the spec: the rule table of a loaded dataset — every line,
in order, classified by `parseRuleLine`, with its line index. -/
def tableRules (lines : List String) : List PslRule :=
  lines.enum.filterMap (fun p => parseRuleLine p.1 p.2)

/-- Modelled from the spec (section 4.3 step 1): a rule matches when its
labels, right-aligned against the domain labels, agree exactly; a wildcard
additionally consumes one generic label to the left of its literal suffix. -/
def ruleMatches (d : List String) (r : PslRule) : Bool :=
  match r.kind with
  | RuleKind.exactRule =>
    decide (r.labels.length ≤ d.length) &&
      decide (d.drop (d.length - r.labels.length) = r.labels)
  | RuleKind.wildcardRule =>
    decide (r.labels.length + 1 ≤ d.length) &&
      decide (d.drop (d.length - r.labels.length) = r.labels)
  | RuleKind.exceptionRule =>
    decide (r.labels.length ≤ d.length) &&
      decide (d.drop (d.length - r.labels.length) = r.labels)

/-- Modelled from the spec (section 4.3 step 2): the number of domain labels
a matching rule covers. -/
def matchedLen (r : PslRule) : Nat :=
  match r.kind with
  | RuleKind.wildcardRule => r.labels.length + 1
  | _ => r.labels.length

/-- Modelled from the spec (section 4.3 steps 1-3): the effective public
suffix of a matching rule, as domain labels: an exact rule contributes its
own labels, a wildcard the literal suffix plus the consumed generic label,
an exception its labels with the leading exclamation-marked label removed. -/
def effectiveSuffix (d : List String) (r : PslRule) : List String :=
  match r.kind with
  | RuleKind.exactRule => r.labels
  | RuleKind.wildcardRule => d.drop (d.length - (r.labels.length + 1))
  | RuleKind.exceptionRule => r.labels.drop 1

/-- Modelled from the spec (section 4.3 steps 2-3): candidate preference —
strictly more matched labels wins; at equal length an exception rule wins
over a non-exception. -/
def betterThan (r b : PslRule) : Bool :=
  decide (matchedLen b < matchedLen r) ||
    (decide (matchedLen r = matchedLen b) && r.kind == RuleKind.exceptionRule &&
      !(b.kind == RuleKind.exceptionRule))

/-- One selection step over candidates. -/
def pickStep (best : Option PslRule) (r : PslRule) : Option PslRule :=
  match best with
  | none => some r
  | some b => if betterThan r b then some r else some b

/-- Modelled from the spec: the winning candidate, if any. -/
def pickBest (cands : List PslRule) : Option PslRule :=
  cands.foldl pickStep none

/-- The result record of one matcher query (spec section 3). -/
structure MatchResult where
  publicSuffix : Option String
  registrableDomain : Option String
  matchedLineIndex : Option Nat
deriving DecidableEq

/-- The rules of the table that match the query's labels. -/
def matchCandidates (tableLines : List String) (q : String) : List PslRule :=
  (tableRules tableLines).filter (fun r => ruleMatches (labelsOf q) r)

/-- Render a suffix (as domain labels) into a match result: the registrable
domain is the suffix plus the one domain label to its left when such a label
exists, else null (spec section 4.3 step 5). -/
def mkResult (d suf : List String) (idx : Option Nat) : MatchResult :=
  { publicSuffix := some (joinDots suf)
    registrableDomain :=
      if suf.length < d.length then some (joinDots (d.drop (d.length - suf.length - 1)))
      else none
    matchedLineIndex := idx }

/-- Modelled from the spec (section 4.3): match a domain query (an
already-normalized domain string, spec section 3) against a loaded line
table.  A winning rule yields its effective suffix and line index.  With no
matching rule the single rightmost label is the suffix (implicit universal
wildcard) and the line index is null. -/
def pslMatch (tableLines : List String) (q : String) : MatchResult :=
  match pickBest (matchCandidates tableLines q) with
  | some r =>
    mkResult (labelsOf q) (effectiveSuffix (labelsOf q) r) (some r.lineIndex)
  | none =>
    mkResult (labelsOf q) ((labelsOf q).drop ((labelsOf q).length - 1)) none

/-- The NIC lookup guarded by TLD truthiness (`nic = None; if tld: nic =
find_nic_url_for_suffix(tld)` in the source). -/
def nicForTld (nicText : String) : Option String → Option String
  | some t => if t == "" then none else find_nic_url_for_suffix nicText t
  | none => none

/-- `get_domain_name_tld_sld` from the source, with the matcher's table and
the resolver's dataset text passed in (in the source the former is the
module-wide `psl` object and the latter a fresh `psl_fetch()`): the TLD and
SLD come from the matcher, and the NIC URL is looked up only for a truthy
TLD (`if tld:`). -/
def get_domain_name_tld_sld (table : List String) (nicText : String) (domain : String) :
    Option String × Option String × Option String :=
  ((pslMatch table domain).publicSuffix,
    (pslMatch table domain).registrableDomain,
    nicForTld nicText (pslMatch table domain).publicSuffix)

/-! ### Error modelling

To express that the matcher and resolver never raise, the one genuinely
partial primitive they use — Python list indexing `lines[i]`, which raises
`IndexError` out of range — is modelled in `Except`, and the pipeline is
proved to always return `Except.ok`. -/

/-- The runtime error the embedded operations could in principle raise. -/
inductive PyErr where
  | indexError
deriving DecidableEq

/-- Python `lines[i]`: `IndexError` out of range. -/
def listAtE (l : List String) (i : Nat) : Except PyErr String :=
  match l.get? i with
  | some x => Except.ok x
  | none => Except.error PyErr.indexError

/-- `nicLineHit` with fallible indexing. -/
def nicLineHitE (lines : List String) (i : Nat) : Except PyErr (Option String) :=
  (listAtE lines i).map lineHitStr

/-- The backward NIC scan with fallible indexing. -/
def scanBackNicE (lines : List String) : Nat → Except PyErr (Option String)
  | 0 => nicLineHitE lines 0
  | i + 1 =>
    match nicLineHitE lines (i + 1) with
    | Except.error e => Except.error e
    | Except.ok (some u) => Except.ok (some u)
    | Except.ok none => scanBackNicE lines i

/-- `find_nic_url_for_suffix` with fallible indexing. -/
def find_nic_url_for_suffixE (pslText target : String) : Except PyErr (Option String) :=
  match findTargetLine (splitlines pslText) target with
  | none => Except.ok none
  | some i => scanBackNicE (splitlines pslText) i

/-- The guarded NIC lookup with fallible indexing. -/
def nicForTldE (nicText : String) : Option String → Except PyErr (Option String)
  | some t => if t == "" then Except.ok none else find_nic_url_for_suffixE nicText t
  | none => Except.ok none

/-- `get_domain_name_tld_sld` with fallible indexing in the NIC lookup. -/
def get_domain_name_tld_sldE (table : List String) (nicText : String) (domain : String) :
    Except PyErr (Option String × Option String × Option String) :=
  match nicForTldE nicText (pslMatch table domain).publicSuffix with
  | Except.error e => Except.error e
  | Except.ok nic =>
    Except.ok ((pslMatch table domain).publicSuffix,
      (pslMatch table domain).registrableDomain, nic)

/-! ### Spec-side comparison definitions

Definitions in this block follow the specification's (or a claim's) wording,
to be compared against the embedded code. -/

/-- Modelled from the spec wording: `t` is a label-wise suffix of `s` when
the dot-separated labels of `t` form a suffix of the labels of `s`. -/
def isLabelSuffix (t s : String) : Bool :=
  decide (labelsOf t <:+ labelsOf s)

/-- A match result carries a non-null public suffix that is a label-wise
suffix of the queried domain. -/
def suffixOk (m : MatchResult) (q : String) : Bool :=
  match m.publicSuffix with
  | none => false
  | some s => isLabelSuffix s q

/-- Modelled from the spec decision table (section 4.5), amended per claim
C5: presence is Python truthiness (null and the empty string are absent) and
the relation tested between a present tld and sld is Python substring
containment, not label-wise suffixhood. -/
def classifySpecAmended (tld sld : Option String) : Category :=
  if !pyTruthy tld && !pyTruthy sld then Category.unparseable
  else if !pyTruthy tld then Category.inconsistentData
  else if !pyTruthy sld then Category.isPublicSuffix
  else if tld.getD "" == sld.getD "" then Category.isPublicSuffix
  else if pyInStr (tld.getD "") (sld.getD "") then Category.ordinaryRegistrable
  else Category.inconsistentData

/-- Modelled from the claim C4 wording, as stated: the extraction takes the
substring from the first occurrence of `https://` up to the next whitespace
character or the end of the line (possibly nothing follows it). -/
def specStatedExtract : List Char → Option (List Char)
  | [] => none
  | c :: cs =>
    if httpsChars.isPrefixOf (c :: cs) then
      some (httpsChars ++ (cs.drop 7).takeWhile (fun ch => !isPySpace ch))
    else specStatedExtract cs

/-- Modelled from the claim C4 wording, as stated: a comment line (stripped,
starting with `//`) that contains the substring `https://` terminates the
scan with the stated extraction. -/
def specStatedCore (line : String) : Option String :=
  if strStartsWith "//" line && pyInStr "https://" line then
    (specStatedExtract line.data).map String.mk
  else none

/-- The stated hit attempt at index `k` of the line table. -/
def specStatedHit (lines : List String) (k : Nat) : Option String :=
  specStatedCore (pyStrip ((lines.get? k).getD ""))

/-- Modelled from the claim C4 wording, as stated: backward scan from the
index, terminating at the first comment line that contains `https://`. -/
def specStatedScan (lines : List String) : Nat → Option String
  | 0 => specStatedHit lines 0
  | i + 1 =>
    match specStatedHit lines (i + 1) with
    | some u => some u
    | none => specStatedScan lines i

/-- Modelled from the claim C4 wording, as stated: null index gives null,
otherwise the stated backward scan. -/
def spec_resolveNic (lines : List String) : Option Nat → Option String
  | none => none
  | some i => specStatedScan lines i

/-- Modelled from the spec (claim C4, amended): one backward-scan step — a
stripped line bearing the `//` comment marker terminates the scan exactly
when some occurrence of `https://` in it is followed by at least one
non-whitespace character, contributing `https://` plus the maximal
non-whitespace run after the first such occurrence. -/
def specAmendedCore (line : String) : Option String :=
  if strStartsWith "//" line then (searchUrlC line.data).map String.mk else none

/-- The amended hit attempt at index `k` of the line table. -/
def specAmendedHit (lines : List String) (k : Nat) : Option String :=
  specAmendedCore (pyStrip ((lines.get? k).getD ""))

/-- Well-formedness of every rule the loader produces: a non-empty label
sequence, no dot inside a label, and at least two labels for an exception
rule (glossary form `!label.suffix`). -/
def RuleWF (r : PslRule) : Prop :=
  r.labels ≠ [] ∧ (∀ s ∈ r.labels, '.' ∉ s.data) ∧
    (r.kind = RuleKind.exceptionRule → 2 ≤ r.labels.length)

/-- An excerpt of the standard PSL dataset carrying the rules and NIC
comments that govern the concrete query vectors of the spec. -/
def stdTable : List String :=
  ["// com : https://www.verisign.com/domain-names",
   "com",
   "",
   "// uk : https://www.nominet.uk/",
   "uk",
   "co.uk"]

/-- A four-line table on which the stated C4 scan and the code diverge: the
comment at index 2 contains `https://` followed by nothing, which the stated
scan treats as terminating but the code skips over. -/
def nicExampleLines : List String :=
  ["// see https://upper.example for info", "rule1", "// https://", "com"]

/-! ### Properties of the label split and join -/

theorem splitOnDot_ne_nil (cs : List Char) : splitOnDot cs ≠ [] := by
  induction cs with
  | nil => simp [splitOnDot]
  | cons c cs ih =>
    simp only [splitOnDot]
    split
    · simp
    · split
      · simp
      · simp

theorem splitOnDot_dot_cons (rest : List Char) :
    splitOnDot ('.' :: rest) = [] :: splitOnDot rest := by
  simp [splitOnDot]

theorem splitOnDot_nondot_cons (c : Char) (h : c ≠ '.') (cs : List Char) :
    splitOnDot (c :: cs) = (c :: (splitOnDot cs).headD []) :: (splitOnDot cs).tail := by
  simp only [splitOnDot, if_neg h]
  cases hs : splitOnDot cs with
  | nil => exact absurd hs (splitOnDot_ne_nil cs)
  | cons l ls => simp

theorem splitOnDot_no_dot (cs : List Char) (h : '.' ∉ cs) : splitOnDot cs = [cs] := by
  induction cs with
  | nil => simp [splitOnDot]
  | cons c cs ih =>
    have hc : c ≠ '.' := fun e => h (e ▸ List.mem_cons_self c cs)
    rw [splitOnDot_nondot_cons c hc, ih (fun m => h (List.mem_cons_of_mem c m))]
    simp

theorem splitOnDot_dotFree (cs : List Char) : ∀ l ∈ splitOnDot cs, '.' ∉ l := by
  induction cs with
  | nil =>
    intro l hl
    simp only [splitOnDot, List.mem_singleton] at hl
    simp [hl]
  | cons c cs ih =>
    intro l hl
    by_cases hc : c = '.'
    · subst hc
      rw [splitOnDot_dot_cons] at hl
      rcases List.mem_cons.mp hl with h | h
      · simp [h]
      · exact ih l h
    · cases hs : splitOnDot cs with
      | nil => exact absurd hs (splitOnDot_ne_nil cs)
      | cons p ps =>
        rw [splitOnDot_nondot_cons c hc, hs] at hl
        simp only [List.headD_cons, List.tail_cons] at hl
        rcases List.mem_cons.mp hl with h | h
        · subst h
          intro hmem
          rcases List.mem_cons.mp hmem with h2 | h2
          · exact hc h2.symm
          · exact ih p (by rw [hs]; exact List.mem_cons_self p ps) h2
        · exact ih l (by rw [hs]; exact List.mem_cons_of_mem p h)

theorem splitOnDot_append (l rest : List Char) (h : '.' ∉ l) :
    splitOnDot (l ++ '.' :: rest) = l :: splitOnDot rest := by
  induction l with
  | nil => simpa using splitOnDot_dot_cons rest
  | cons c l ih =>
    have hc : c ≠ '.' := fun e => h (e ▸ List.mem_cons_self c l)
    rw [List.cons_append, splitOnDot_nondot_cons c hc,
      ih (fun m => h (List.mem_cons_of_mem c m))]
    simp

theorem splitOnDot_joinDotsC :
    ∀ Ls : List (List Char), Ls ≠ [] → (∀ l ∈ Ls, '.' ∉ l) →
      splitOnDot (joinDotsC Ls) = Ls
  | [], h, _ => absurd rfl h
  | [l], _, hf => by
    simp only [joinDotsC]
    exact splitOnDot_no_dot l (hf l (List.mem_singleton.mpr rfl))
  | l :: l2 :: ls, _, hf => by
    simp only [joinDotsC]
    rw [splitOnDot_append l _ (hf l (List.mem_cons_self _ _)),
      splitOnDot_joinDotsC (l2 :: ls) (by simp)
        (fun x hx => hf x (List.mem_cons_of_mem _ hx))]

theorem mapMk_splitOnDot_ne_nil (cs : List Char) :
    (splitOnDot cs).map String.mk ≠ [] := by
  intro h
  exact splitOnDot_ne_nil cs (List.map_eq_nil_iff.mp h)

theorem mapMk_splitOnDot_dotFree (cs : List Char) :
    ∀ s ∈ (splitOnDot cs).map String.mk, '.' ∉ s.data := by
  intro s hs
  rcases List.mem_map.mp hs with ⟨l, hl, rfl⟩
  exact splitOnDot_dotFree cs l hl

theorem labelsOf_ne_nil (q : String) : labelsOf q ≠ [] :=
  mapMk_splitOnDot_ne_nil q.data

theorem labelsOf_dotFree (q : String) : ∀ s ∈ labelsOf q, '.' ∉ s.data :=
  mapMk_splitOnDot_dotFree q.data

theorem labelsOf_joinDots (L : List String) (hne : L ≠ [])
    (hf : ∀ s ∈ L, '.' ∉ s.data) : labelsOf (joinDots L) = L := by
  unfold labelsOf joinDots
  rw [show (String.mk (joinDotsC (L.map String.data))).data
        = joinDotsC (L.map String.data) from rfl]
  rw [splitOnDot_joinDotsC (L.map String.data) (by simpa using hne)
    (by intro l hl; rcases List.mem_map.mp hl with ⟨s, hs, rfl⟩; exact hf s hs)]
  rw [List.map_map]
  rw [show (String.mk ∘ String.data) = id from funext fun s => rfl, List.map_id]

theorem joinDots_single (x : String) : joinDots [x] = x := rfl

/-! ### Properties of the loader and the matcher -/

theorem tableRules_wf (lines : List String) (r : PslRule)
    (hr : r ∈ tableRules lines) : RuleWF r := by
  unfold tableRules at hr
  rcases List.mem_filterMap.mp hr with ⟨p, _, hp⟩
  unfold parseRuleLine classifyRuleLine at hp
  split at hp
  · exact absurd hp (by simp)
  · split at hp
    · exact absurd hp (by simp)
    · split at hp
      · split at hp
        · next hlen =>
          obtain rfl := Option.some.inj hp
          refine ⟨mapMk_splitOnDot_ne_nil _, mapMk_splitOnDot_dotFree _, fun _ => hlen⟩
        · exact absurd hp (by simp)
      · split at hp
        · obtain rfl := Option.some.inj hp
          exact ⟨mapMk_splitOnDot_ne_nil _, mapMk_splitOnDot_dotFree _, by intro h; cases h⟩
        · obtain rfl := Option.some.inj hp
          exact ⟨mapMk_splitOnDot_ne_nil _, mapMk_splitOnDot_dotFree _, by intro h; cases h⟩

theorem foldl_pickStep_pred (P : PslRule → Prop) (l : List PslRule) :
    ∀ b : Option PslRule, (∀ x, b = some x → P x) → (∀ x ∈ l, P x) →
      ∀ y, l.foldl pickStep b = some y → P y := by
  induction l with
  | nil => intro b hb _ y hy; exact hb y hy
  | cons a l ih =>
    intro b hb hl y hy
    rw [List.foldl_cons] at hy
    refine ih (pickStep b a) ?_ (fun x hx => hl x (List.mem_cons_of_mem a hx)) y hy
    intro x hx
    cases b with
    | none =>
      simp only [pickStep] at hx
      obtain rfl := Option.some.inj hx
      exact hl a (List.mem_cons_self a l)
    | some bb =>
      simp only [pickStep] at hx
      split at hx
      · obtain rfl := Option.some.inj hx
        exact hl a (List.mem_cons_self a l)
      · obtain rfl := Option.some.inj hx
        exact hb bb rfl

theorem pickBest_mem (l : List PslRule) (r : PslRule) (h : pickBest l = some r) :
    r ∈ l :=
  foldl_pickStep_pred (· ∈ l) l none (fun x hx => by cases hx) (fun _ hx => hx) r h

theorem effectiveSuffix_spec (d : List String) (r : PslRule) (hwf : RuleWF r)
    (hm : ruleMatches d r = true) :
    effectiveSuffix d r ≠ [] ∧ (effectiveSuffix d r).length ≤ d.length ∧
      d.drop (d.length - (effectiveSuffix d r).length) = effectiveSuffix d r := by
  obtain ⟨k, L, idx⟩ := r
  obtain ⟨hne, _, hexc⟩ := hwf
  cases k with
  | exactRule =>
    simp only [ruleMatches, Bool.and_eq_true, decide_eq_true_eq] at hm
    simp only [effectiveSuffix]
    exact ⟨hne, hm.1, hm.2⟩
  | wildcardRule =>
    simp only [ruleMatches, Bool.and_eq_true, decide_eq_true_eq] at hm
    simp only [effectiveSuffix]
    have hlen : (d.drop (d.length - (L.length + 1))).length = L.length + 1 := by
      rw [List.length_drop]; omega
    refine ⟨?_, ?_, ?_⟩
    · intro h
      rw [h] at hlen
      simp at hlen
    · rw [List.length_drop]; omega
    · rw [hlen]
  | exceptionRule =>
    simp only [ruleMatches, Bool.and_eq_true, decide_eq_true_eq] at hm
    simp only [effectiveSuffix]
    have hL2 : 2 ≤ L.length := hexc rfl
    have hlen : (L.drop 1).length = L.length - 1 := by
      rw [List.length_drop]
    refine ⟨?_, ?_, ?_⟩
    · intro h
      rw [h] at hlen
      simp only [List.length_nil] at hlen
      omega
    · rw [hlen]; omega
    · rw [hlen]
      rw [show d.length - (L.length - 1) = d.length - L.length + 1 from by omega]
      conv_rhs => rw [← hm.2]
      rw [List.drop_drop]

theorem drop_length_sub_one {α : Type} (x : α) :
    ∀ d : List α, d ≠ [] → d.drop (d.length - 1) = [d.getLastD x] := by
  intro d
  induction d with
  | nil => intro h; exact absurd rfl h
  | cons a d ih =>
    intro _
    cases d with
    | nil => simp
    | cons b t =>
      rw [List.getLastD_cons]
      rw [show (a :: b :: t).length - 1 = (b :: t).length from by simp]
      rw [show (b :: t).length = t.length + 1 from by simp]
      rw [List.drop_succ_cons]
      rw [show t.length = (b :: t).length - 1 from by simp]
      exact ih (by simp)

theorem pslMatch_cases (table : List String) (q : String) :
    ∃ suf : List String,
      suf ≠ [] ∧
      (labelsOf q).drop ((labelsOf q).length - suf.length) = suf ∧
      suf.length ≤ (labelsOf q).length ∧
      (pslMatch table q).publicSuffix = some (joinDots suf) ∧
      (pslMatch table q).registrableDomain =
        (if suf.length < (labelsOf q).length then
          some (joinDots ((labelsOf q).drop ((labelsOf q).length - suf.length - 1)))
        else none) := by
  cases hpick : pickBest (matchCandidates table q) with
  | some r =>
    have hmem := pickBest_mem _ r hpick
    have hmatch : ruleMatches (labelsOf q) r = true := by
      simpa using (List.mem_filter.mp hmem).2
    have hwf : RuleWF r := tableRules_wf table r (List.mem_filter.mp hmem).1
    obtain ⟨hne, hle, hdrop⟩ := effectiveSuffix_spec (labelsOf q) r hwf hmatch
    exact ⟨effectiveSuffix (labelsOf q) r, hne, hdrop, hle,
      by simp [pslMatch, hpick, mkResult], by simp [pslMatch, hpick, mkResult]⟩
  | none =>
    have hq := labelsOf_ne_nil q
    have hpos : 1 ≤ (labelsOf q).length := List.length_pos.mpr hq
    have hlen : ((labelsOf q).drop ((labelsOf q).length - 1)).length = 1 := by
      rw [List.length_drop]; omega
    refine ⟨(labelsOf q).drop ((labelsOf q).length - 1), ?_, ?_, ?_, ?_, ?_⟩
    · intro h; rw [h] at hlen; simp at hlen
    · rw [hlen]
    · rw [hlen]; omega
    · simp [pslMatch, hpick, mkResult]
    · simp only [pslMatch, hpick, mkResult, hlen]

/-- Claim C1: for every loaded table and every domain on which no rule of the
table matches, the matcher falls back to the implicit universal wildcard: the
domain's single rightmost label is returned as a non-null public suffix, and
the matched line index is null. -/
theorem claim_C1 (table : List String) (q : String)
    (h : ∀ r ∈ tableRules table, ruleMatches (labelsOf q) r = false) :
    (pslMatch table q).publicSuffix = some ((labelsOf q).getLastD "") ∧
      (pslMatch table q).matchedLineIndex = none := by
  have hcand : matchCandidates table q = [] := by
    unfold matchCandidates
    rw [List.filter_eq_nil_iff]
    intro r hr
    simp [h r hr]
  have hpick : pickBest (matchCandidates table q) = none := by
    rw [hcand]; rfl
  have hlast := drop_length_sub_one "" (labelsOf q) (labelsOf_ne_nil q)
  constructor
  · simp only [pslMatch, hpick, mkResult]
    rw [hlast, joinDots_single]
  · simp [pslMatch, hpick, mkResult]

/-- Witness for C1: against a table whose single rule is `com`, the domain
`example.org` matches no rule and `org` comes back as the public suffix. -/
theorem claim_C1_witness :
    (pslMatch ["com"] "example.org").publicSuffix
        = some ((labelsOf "example.org").getLastD "") ∧
      (pslMatch ["com"] "example.org").matchedLineIndex = none ∧
      (labelsOf "example.org").getLastD "" = "org" := by
  have h := claim_C1 ["com"] "example.org" (by decide)
  exact ⟨h.1, h.2, by decide⟩

/-- Claim C7: whenever a query's public suffix and registrable domain are
both non-null, the public suffix is a label-wise suffix of the registrable
domain and the registrable domain has exactly one more label. -/
theorem claim_C7 (table : List String) (q s r : String)
    (hs : (pslMatch table q).publicSuffix = some s)
    (hr : (pslMatch table q).registrableDomain = some r) :
    labelsOf s <:+ labelsOf r ∧ (labelsOf r).length = (labelsOf s).length + 1 := by
  obtain ⟨suf, hne, hdrop, hle, hps, hrd⟩ := pslMatch_cases table q
  rw [hps] at hs
  obtain rfl := Option.some.inj hs
  rw [hrd] at hr
  by_cases hlt : suf.length < (labelsOf q).length
  · rw [if_pos hlt] at hr
    obtain rfl := Option.some.inj hr
    have hsufdf : ∀ x ∈ suf, '.' ∉ x.data := by
      intro x hx
      rw [← hdrop] at hx
      exact labelsOf_dotFree q x (List.drop_subset _ _ hx)
    have hs1 : labelsOf (joinDots suf) = suf := labelsOf_joinDots suf hne hsufdf
    have hreglen :
        ((labelsOf q).drop ((labelsOf q).length - suf.length - 1)).length
          = suf.length + 1 := by
      rw [List.length_drop]; omega
    have hregne : (labelsOf q).drop ((labelsOf q).length - suf.length - 1) ≠ [] := by
      intro h; rw [h] at hreglen; simp at hreglen
    have hregdf :
        ∀ x ∈ (labelsOf q).drop ((labelsOf q).length - suf.length - 1), '.' ∉ x.data :=
      fun x hx => labelsOf_dotFree q x (List.drop_subset _ _ hx)
    have hs2 := labelsOf_joinDots _ hregne hregdf
    rw [hs1, hs2]
    constructor
    · have hdd : ((labelsOf q).drop ((labelsOf q).length - suf.length - 1)).drop 1 = suf := by
        rw [List.drop_drop]
        rw [show (labelsOf q).length - suf.length - 1 + 1
              = (labelsOf q).length - suf.length from by omega]
        exact hdrop
      have hsfx := List.drop_suffix 1
        ((labelsOf q).drop ((labelsOf q).length - suf.length - 1))
      rwa [hdd] at hsfx
    · exact hreglen
  · rw [if_neg hlt] at hr
    cases hr

/-- Witness for C7 at the dataset excerpt and the domain `example.com`. -/
theorem claim_C7_witness :
    labelsOf "com" <:+ labelsOf "example.com" ∧
      (labelsOf "example.com").length = (labelsOf "com").length + 1 :=
  claim_C7 stdTable "example.com" "com" "example.com" (by decide) (by decide)

/-- Claim C8: the matcher always returns a non-null public suffix that is a
label-wise suffix of the (valid, at-least-two-label) queried domain, and on
the dataset excerpt the two concrete vectors of the spec hold. -/
theorem claim_C8 :
    (∀ (table : List String) (q : String), is_valid_domain q = true →
      suffixOk (pslMatch table q) q = true) ∧
    (pslMatch stdTable "example.com").publicSuffix = some "com" ∧
    (pslMatch stdTable "example.com").registrableDomain = some "example.com" ∧
    (pslMatch stdTable "subdomain.example.co.uk").publicSuffix = some "co.uk" ∧
    (pslMatch stdTable "subdomain.example.co.uk").registrableDomain
        = some "example.co.uk" := by
  refine ⟨?_, by decide, by decide, by decide, by decide⟩
  intro table q _
  obtain ⟨suf, hne, hdrop, _, hps, _⟩ := pslMatch_cases table q
  have hsufdf : ∀ x ∈ suf, '.' ∉ x.data := by
    intro x hx
    rw [← hdrop] at hx
    exact labelsOf_dotFree q x (List.drop_subset _ _ hx)
  simp only [suffixOk, hps, isLabelSuffix]
  rw [labelsOf_joinDots suf hne hsufdf, decide_eq_true_eq, ← hdrop]
  exact List.drop_suffix _ _

/-- Witness for C8 at the dataset excerpt and the domain `example.com`. -/
theorem claim_C8_witness :
    is_valid_domain "example.com" = true ∧
      suffixOk (pslMatch stdTable "example.com") "example.com" = true :=
  ⟨by decide, claim_C8.1 stdTable "example.com" (by decide)⟩

/-! ### The validator claims -/

set_option maxRecDepth 20000

/-- Claim C2: the concrete validator vectors of the spec all hold, but the
claimed characterization does not — the regex anchors its no-leading-hyphen
test at the start of the whole string only, so `a.-b.com`, whose second
label begins with a hyphen, is accepted. -/
theorem claim_C2_eval :
    is_valid_domain "example.com" = true ∧
      is_valid_domain "-bad.com" = false ∧
      is_valid_domain (String.mk (List.replicate 64 'a') ++ ".com") = false ∧
      is_valid_domain (String.mk (List.replicate 254 'a')) = false ∧
      is_valid_domain "no-dot-here" = false ∧
      is_valid_domain "a.-b.com" = true := by
  decide

/-- Claim C3: the validator accepts `a.-b.com` although its second label
`-b` begins with a hyphen, contradicting the claim (and the function's own
docstring). -/
theorem claim_C3_eval :
    is_valid_domain "a.-b.com" = true ∧
      (labelsOf "a.-b.com").get? 1 = some "-b" ∧
      "-b".data.head? = some '-' := by
  decide

/-! ### The NIC resolver claims -/

theorem httpsData : "https://".data = httpsChars := rfl

theorem searchUrlC_none_of_not_contains (cs : List Char)
    (h : containsSubC httpsChars cs = false) : searchUrlC cs = none := by
  induction cs with
  | nil => rfl
  | cons c cs ih =>
    simp only [containsSubC, Bool.or_eq_false_iff] at h
    simp only [searchUrlC, h.1]
    simp only [Bool.false_eq_true, if_false]
    exact ih h.2

theorem lineHitCore_eq_specAmendedCore (line : String) :
    lineHitCore line = specAmendedCore line := by
  unfold lineHitCore specAmendedCore
  by_cases hst : strStartsWith "//" line = true
  · by_cases hin : pyInStr "https://" line = true
    · simp [hst, hin]
    · have hfalse : containsSubC httpsChars line.data = false := by
        unfold pyInStr at hin
        rw [httpsData] at hin
        exact (Bool.not_eq_true _).mp hin
      simp [hst, hin, searchUrlC_none_of_not_contains line.data hfalse]
  · simp [hst]

theorem scanBackNic_findSome (lines : List String) :
    ∀ i : Nat, scanBackNic lines i
      = ((List.range (i + 1)).reverse).findSome? (nicLineHit lines) := by
  intro i
  induction i with
  | zero =>
    simp only [scanBackNic, List.range_succ, List.range_zero, List.nil_append,
      List.reverse_singleton, List.findSome?_cons, List.findSome?_nil]
    cases h : nicLineHit lines 0 <;> simp [h]
  | succ i ih =>
    rw [List.range_succ, List.reverse_append]
    simp only [List.reverse_singleton, List.singleton_append]
    rw [List.findSome?_cons]
    unfold scanBackNic
    cases h : nicLineHit lines (i + 1) with
    | some u => simp [h]
    | none => simp [h, ih]

/-- Claim C4, counterexample: on the four-line table, scanning back from
index 3, the stated rule terminates at the comment `// https://` (index 2)
and extracts the bare scheme, while the code skips that line — its regex
requires a non-whitespace character after `https://` — and returns the URL
found two lines higher. -/
theorem claim_C4_counterexample :
    resolveNic nicExampleLines (some 3) = some "https://upper.example" ∧
      spec_resolveNic nicExampleLines (some 3) = some "https://" := by
  decide

/-- Claim C4, amended: a null index resolves to null at once, and the scan
from index `i` returns the first hit over indices `i, i-1, ..., 0`, where a
line hits exactly when, once stripped, it starts with the `//` comment
marker and some occurrence of `https://` in it is followed by at least one
non-whitespace character; the hit value is `https://` plus the maximal
non-whitespace run after the first such occurrence.  Comment lines whose
every `https://` occurrence is followed by whitespace or line end do not
terminate the scan. -/
theorem claim_C4_amended :
    (∀ lines : List String, resolveNic lines none = none) ∧
      ∀ (lines : List String) (i : Nat),
        resolveNic lines (some i)
          = ((List.range (i + 1)).reverse).findSome? (specAmendedHit lines) := by
  refine ⟨fun lines => rfl, ?_⟩
  intro lines i
  have hfun : nicLineHit lines = specAmendedHit lines := by
    funext k
    unfold nicLineHit specAmendedHit lineHitStr
    exact lineHitCore_eq_specAmendedCore _
  rw [show resolveNic lines (some i) = scanBackNic lines i from rfl,
    scanBackNic_findSome lines i, hfun]

/-! ### The interpreter claims -/

/-- Claim C5, counterexample: with tld `co.uk` and sld `xco.uk` the code
classifies an ordinary registrable domain — `co.uk` is a Python substring of
`xco.uk` — although `co.uk` is not a label-wise suffix of `xco.uk`, so the
claimed exact correspondence with label-wise suffixhood fails. -/
theorem claim_C5_counterexample :
    classify (some "co.uk") (some "xco.uk") = Category.ordinaryRegistrable ∧
      isLabelSuffix "co.uk" "xco.uk" = false := by
  decide

/-- Claim C5, amended: the classifier agrees everywhere with the spec's
decision table once presence means Python truthiness (null or empty string
is absent) and the relation between a present tld and sld is Python
substring containment rather than label-wise suffixhood; the four concrete
vectors of the claim hold as stated. -/
theorem claim_C5_amended :
    (∀ tld sld : Option String, classify tld sld = classifySpecAmended tld sld) ∧
      classify (some "co.uk") (some "example.co.uk") = Category.ordinaryRegistrable ∧
      classify (some "co.uk") (some "co.uk") = Category.isPublicSuffix ∧
      classify none (some "example.com") = Category.inconsistentData ∧
      classify none none = Category.unparseable := by
  refine ⟨?_, by decide, by decide, by decide, by decide⟩
  intro tld sld
  cases tld with
  | none =>
    cases sld with
    | none => rfl
    | some s =>
      by_cases hs : s = ""
      · subst hs; rfl
      · simp [classify, classifySpecAmended, pyTruthy, hs]
  | some t =>
    cases sld with
    | none =>
      by_cases ht : t = ""
      · subst ht; rfl
      · simp [classify, classifySpecAmended, pyTruthy, ht]
    | some s =>
      by_cases ht : t = ""
      · subst ht
        by_cases hs : s = ""
        · subst hs; rfl
        · simp [classify, classifySpecAmended, pyTruthy, hs]
      · by_cases hs : s = ""
        · subst hs; simp [classify, classifySpecAmended, pyTruthy, ht]
        · by_cases hts : t = s
          · subst hts; simp [classify, classifySpecAmended, pyTruthy, ht]
          · by_cases hin : pyInStr t s = true
            · simp [classify, classifySpecAmended, pyTruthy, ht, hs, hts, hin]
            · simp [classify, classifySpecAmended, pyTruthy, ht, hs, hts, hin]

/-! ### Error-freedom, determinism, and the missing-suffix claims -/

theorem nicLineHitE_ok (lines : List String) (i : Nat) (h : i < lines.length) :
    nicLineHitE lines i = Except.ok (nicLineHit lines i) := by
  unfold nicLineHitE listAtE nicLineHit
  cases hg : lines.get? i with
  | none =>
    have := List.get?_eq_none.mp hg
    omega
  | some x => simp [Except.map, hg]

theorem scanBackNicE_ok (lines : List String) :
    ∀ i : Nat, i < lines.length →
      scanBackNicE lines i = Except.ok (scanBackNic lines i) := by
  intro i
  induction i with
  | zero => intro h; simp [scanBackNicE, scanBackNic, nicLineHitE_ok lines 0 h]
  | succ i ih =>
    intro h
    unfold scanBackNicE scanBackNic
    rw [nicLineHitE_ok lines (i + 1) h]
    cases hk : nicLineHit lines (i + 1) with
    | some u => rfl
    | none => exact ih (by omega)

theorem findTargetLineAux_lt (target : String) :
    ∀ (l : List String) (start j : Nat),
      findTargetLineAux target l start = some j → j < start + l.length := by
  intro l
  induction l with
  | nil => intro start j h; cases h
  | cons line rest ih =>
    intro start j h
    unfold findTargetLineAux at h
    split at h
    · obtain rfl := Option.some.inj h
      simp
    · have := ih (start + 1) j h
      simp only [List.length_cons]
      omega

theorem findTargetLine_lt (lines : List String) (target : String) (i : Nat)
    (h : findTargetLine lines target = some i) : i < lines.length := by
  have := findTargetLineAux_lt target lines 0 i h
  omega

theorem find_nic_urlE_ok (pslText target : String) :
    find_nic_url_for_suffixE pslText target
      = Except.ok (find_nic_url_for_suffix pslText target) := by
  unfold find_nic_url_for_suffixE find_nic_url_for_suffix
  cases hf : findTargetLine (splitlines pslText) target with
  | none => simp [hf, resolveNic]
  | some i =>
    simp only [hf, resolveNic]
    exact scanBackNicE_ok (splitlines pslText) i (findTargetLine_lt _ _ _ hf)

theorem nicForTldE_ok (nicText : String) (t : Option String) :
    nicForTldE nicText t = Except.ok (nicForTld nicText t) := by
  cases t with
  | none => rfl
  | some s =>
    show (if s == "" then Except.ok none else find_nic_url_for_suffixE nicText s)
      = Except.ok (if s == "" then none else find_nic_url_for_suffix nicText s)
    by_cases h : s == ""
    · rw [if_pos h, if_pos h]
    · rw [if_neg h, if_neg h]
      exact find_nic_urlE_ok nicText s

/-- Claim C6: with every fallible primitive (Python list indexing) modelled
explicitly, the matcher-plus-NIC pipeline and the resolver always return a
value — absence of a suffix, registrable domain, or NIC URL is a null field
in the result, never an error. -/
theorem claim_C6 (table : List String) (nicText domain target : String) :
    get_domain_name_tld_sldE table nicText domain
        = Except.ok (get_domain_name_tld_sld table nicText domain) ∧
      find_nic_url_for_suffixE nicText target
        = Except.ok (find_nic_url_for_suffix nicText target) := by
  refine ⟨?_, find_nic_urlE_ok nicText target⟩
  unfold get_domain_name_tld_sldE get_domain_name_tld_sld
  rw [nicForTldE_ok]

/-- Claim C9: loading equal dataset texts yields tables on which the matcher
and the NIC resolver return identical results for identical queries. -/
theorem claim_C9 (t1 t2 q target : String) (h : t1 = t2) :
    pslMatch (splitlines t1) q = pslMatch (splitlines t2) q ∧
      find_nic_url_for_suffix t1 target = find_nic_url_for_suffix t2 target := by
  subst h
  exact ⟨rfl, rfl⟩

/-- Witness for C9 at a concrete dataset text and query. -/
theorem claim_C9_witness :
    pslMatch (splitlines "com\n") "a.com" = pslMatch (splitlines "com\n") "a.com" ∧
      find_nic_url_for_suffix "com\n" "com" = find_nic_url_for_suffix "com\n" "com" :=
  claim_C9 "com\n" "com\n" "a.com" "com" rfl

theorem findTargetLineAux_none (target : String) :
    ∀ (l : List String) (start : Nat),
      (∀ line ∈ l, pyStrip line ≠ target) →
      findTargetLineAux target l start = none := by
  intro l
  induction l with
  | nil => intro start _; rfl
  | cons line rest ih =>
    intro start h
    unfold findTargetLineAux
    rw [if_neg]
    · exact ih (start + 1) (fun x hx => h x (List.mem_cons_of_mem line hx))
    · simp only [beq_iff_eq]
      exact h line (List.mem_cons_self line rest)

/-- Claim C10: a suffix that never occurs, stripped, as an entire dataset
line — a public suffix born of a `*.suffix` wildcard entry, say — gets a
null NIC URL: the forward search fails and the backward scan never runs. -/
theorem claim_C10 (text target : String)
    (h : ∀ line ∈ splitlines text, pyStrip line ≠ target) :
    find_nic_url_for_suffix text target = none := by
  unfold find_nic_url_for_suffix
  rw [show findTargetLine (splitlines text) target = none from
    findTargetLineAux_none target (splitlines text) 0 h]
  rfl

/-- Witness for C10: the wildcard-derived suffix `ck` appears in the dataset
only as the line `*.ck`, so its NIC lookup is null. -/
theorem claim_C10_witness :
    (∀ line ∈ splitlines "// https://nic.example\n*.ck\n", pyStrip line ≠ "ck") ∧
      find_nic_url_for_suffix "// https://nic.example\n*.ck\n" "ck" = none :=
  ⟨by decide, claim_C10 "// https://nic.example\n*.ck\n" "ck" (by decide)⟩

end PublicSuffix
